import Mathlib

/-!
Verification of the chunk-streaming core of the Rust-Game repository.

The definitions below shallowly embed the Rust sources:

* `loadChunks` embeds `ComputeWorld::load_chunks`
  (src/rust_game/src/lib/pipelines/load_chunks.rs, lines 44-157).
  Host-visible maps (`HashMap<String, _>`) are embedded as association lists
  with an explicit iteration order; `panic!` and slice-index panics are
  embedded as the `PanicOr.panicked` outcome (Rust's `panic!` unwinds and,
  in this program, terminates the process; it is distinct from returning an
  error value, which the Rust function's type `()` does not allow at all).
  The GPU compute dispatch plus copy-to-staging plus map-for-read round trip
  is abstracted by two parameters `genV genI : Int -> Int -> List Nat` giving
  the bytes visible in the mapped staging range for a chunk corner, and the
  two `map_async` completion signals by oracles `sigV sigI : String -> Bool`.
  wgpu guarantees that the mapped range of a full buffer slice has exactly
  the buffer's size; theorems state this as a length hypothesis on `genV/genI`.
* `rayIntersect` embeds the readback tail of `RayIntersectPipeline::ray_intersect`
  (src/rust_game/src/lib/pipelines/ray_intersection.rs, lines 211-227).
* `producerTick` embeds the background loop body of `run`
  (src/rust_game/src/lib/run.rs, lines 131-154).
* `getChunkKey`, `xCoordF` embed the corner/key computation of
  `World::get_chunk` (src/rust_game/src/world/mod.rs, lines 46-62), over a
  minimal float model `SFloat` (a rational plus an IEEE sign bit, the sign
  bit being observable only at zero).  The chunk edge there is
  `CHUNKSIZE = 16.0`, a power of two, so `f32` division by it, truncation
  and multiplication back are exact on the magnitudes involved and the
  rational component tracks the float exactly.
-/

namespace RustGame

/-! ## Association-list maps (embedding of `HashMap<String, α>`) -/

def mapLookup {α : Type} (k : String) : List (String × α) → Option α
  | [] => none
  | (j, v) :: rest => if j = k then some v else mapLookup k rest

def mapErase {α : Type} (k : String) : List (String × α) → List (String × α)
  | [] => []
  | (j, v) :: rest => if j = k then mapErase k rest else (j, v) :: mapErase k rest

/-- `HashMap::insert` semantics: overwrite any old binding for `k`. -/
def mapInsert {α : Type} (k : String) (v : α) (m : List (String × α)) :
    List (String × α) :=
  mapErase k m ++ [(k, v)]

/-- `HashMap::extend` semantics: insert every binding of `new` into `m`. -/
def mapExtend {α : Type} (m : List (String × α)) : List (String × α) → List (String × α)
  | [] => m
  | (k, v) :: rest => mapExtend (mapInsert k v m) rest

def mapKeys {α : Type} (m : List (String × α)) : List String :=
  m.map Prod.fst

@[simp] theorem mapLookup_nil {α : Type} (k : String) :
    mapLookup k ([] : List (String × α)) = none := rfl

@[simp] theorem mapLookup_cons {α : Type} (k j : String) (v : α) (rest : List (String × α)) :
    mapLookup k ((j, v) :: rest) = if j = k then some v else mapLookup k rest := rfl

theorem mapLookup_append {α : Type} (k : String) (xs ys : List (String × α)) :
    mapLookup k (xs ++ ys) =
      match mapLookup k xs with
      | some v => some v
      | none => mapLookup k ys := by
  induction xs with
  | nil => simp
  | cons p rest ih =>
    obtain ⟨j, v⟩ := p
    by_cases h : j = k <;> simp [h, ih]

theorem mapLookup_erase {α : Type} (k j : String) (m : List (String × α)) :
    mapLookup k (mapErase j m) = if j = k then none else mapLookup k m := by
  induction m with
  | nil => simp [mapErase]
  | cons p rest ih =>
    obtain ⟨i, v⟩ := p
    by_cases hij : i = j
    · subst hij
      by_cases hk : i = k
      · subst hk; simp [mapErase, ih]
      · simp [mapErase, hk, ih]
    · by_cases hk : i = k
      · subst hk
        simp [mapErase, hij, ih]
        intro h
        exact absurd h.symm hij
      · simp [mapErase, hij, hk, ih]

theorem mapLookup_insert {α : Type} (k j : String) (v : α) (m : List (String × α)) :
    mapLookup k (mapInsert j v m) = if j = k then some v else mapLookup k m := by
  unfold mapInsert
  rw [mapLookup_append, mapLookup_erase]
  by_cases h : j = k
  · simp [h]
  · simp only [if_neg h]
    cases mapLookup k m <;> simp [h]

theorem mapErase_of_lookup_none {α : Type} (k : String) (m : List (String × α))
    (h : mapLookup k m = none) : mapErase k m = m := by
  induction m with
  | nil => rfl
  | cons p rest ih =>
    obtain ⟨j, v⟩ := p
    by_cases hjk : j = k
    · subst hjk; simp at h
    · simp [hjk] at h
      simp [mapErase, hjk, ih h]

theorem mapInsert_of_lookup_none {α : Type} (k : String) (v : α) (m : List (String × α))
    (h : mapLookup k m = none) : mapInsert k v m = m ++ [(k, v)] := by
  unfold mapInsert
  rw [mapErase_of_lookup_none k m h]

theorem mapLookup_mem {α : Type} (k : String) (v : α) (m : List (String × α))
    (h : mapLookup k m = some v) : (k, v) ∈ m := by
  induction m with
  | nil => simp at h
  | cons p rest ih =>
    obtain ⟨j, w⟩ := p
    by_cases hjk : j = k
    · subst hjk
      simp at h
      simp [h]
    · simp [hjk] at h
      simp [ih h]

theorem mem_of_mem_erase {α : Type} (k : String) (p : String × α) (m : List (String × α))
    (h : p ∈ mapErase k m) : p ∈ m := by
  induction m with
  | nil => simp [mapErase] at h
  | cons q rest ih =>
    obtain ⟨j, w⟩ := q
    by_cases hjk : j = k
    · subst hjk
      simp [mapErase] at h
      simp [ih h]
    · simp [mapErase, hjk] at h
      rcases h with h | h
      · simp [h]
      · simp [ih h]

theorem mapLookup_extend {α : Type} (k : String) (m new : List (String × α))
    (hnd : (mapKeys new).Nodup) :
    mapLookup k (mapExtend m new) =
      match mapLookup k new with
      | some v => some v
      | none => mapLookup k m := by
  induction new generalizing m with
  | nil => simp [mapExtend]
  | cons p rest ih =>
    obtain ⟨j, v⟩ := p
    simp only [mapKeys, List.map_cons, List.nodup_cons] at hnd
    have hrest : (mapKeys rest).Nodup := hnd.2
    show mapLookup k (mapExtend (mapInsert j v m) rest) = _
    rw [ih (mapInsert j v m) hrest]
    by_cases hjk : j = k
    · subst hjk
      have hnone : mapLookup j rest = none := by
        cases hlk : mapLookup j rest with
        | none => rfl
        | some w =>
          exact absurd (List.mem_map_of_mem Prod.fst (mapLookup_mem _ _ _ hlk)) hnd.1
      simp [hnone, mapLookup_insert]
    · simp [hjk, mapLookup_insert]

/-! ## Panic outcomes

`PanicOr α` is the observable outcome of running a piece of Rust code whose
normal return type embeds to `α` but which may execute `panic!` (or an
indexing/`copy_from_slice` panic): `panicked msg` models the unwind that, in
this program, terminates the process.  It is *not* an error value returned to
the caller - the embedded functions' Rust signatures have no error channel. -/

inductive PanicOr (α : Type) where
  | panicked (msg : String)
  | ok (a : α)
deriving DecidableEq

def PanicOr.bindp {α β : Type} : PanicOr α → (α → PanicOr β) → PanicOr β
  | .panicked msg, _ => .panicked msg
  | .ok a, f => f a

@[simp] theorem PanicOr.bindp_ok {α β : Type} (a : α) (f : α → PanicOr β) :
    PanicOr.bindp (.ok a) f = f a := rfl

@[simp] theorem PanicOr.bindp_panicked {α β : Type} (msg : String) (f : α → PanicOr β) :
    PanicOr.bindp (.panicked msg) f = .panicked msg := rfl

/-! ## Raw chunk data and buffer sizes -/

/-- Embedding of `RawBufferData` (load_chunks.rs lines 15-19).  In Rust the
fields are fixed-size arrays `[u8; 34848]` and `[u8; 24576]`; here they are
byte lists whose lengths are tracked by `RawBufferData.sized`. -/
structure RawBufferData where
  vertex_data : List Nat
  index_data : List Nat
deriving DecidableEq

/-- The Rust field types force these lengths. -/
def RawBufferData.sized (b : RawBufferData) : Prop :=
  b.vertex_data.length = 34848 ∧ b.index_data.length = 24576

/-- `(self.chunk_size.x + 1) * (self.chunk_size.y + 1)` from
`ComputeWorldPipeline::gen_chunk` (load_chunks.rs line 238). -/
def numVertices (cx cy : Nat) : Nat := (cx + 1) * (cy + 1)

/-- Vertex device-buffer size `num_vertices * 8 * size_of::<f32>()`
(load_chunks.rs line 241). -/
def vertexBufferSize (cx cy : Nat) : Nat := numVertices cx cy * 8 * 4

/-- `self.chunk_size.x * self.chunk_size.y * 6` (load_chunks.rs line 247). -/
def numElements (cx cy : Nat) : Nat := cx * cy * 6

/-- Index device-buffer size `num_elements * size_of::<u32>()`
(load_chunks.rs line 250). -/
def indexBufferSize (cx cy : Nat) : Nat := numElements cx cy * 4

/-- `let num_vertices = (32 + 1) * (32 + 1)` hard-coded inside
`ComputeWorld::load_chunks` (load_chunks.rs line 61). -/
def stagingNumVertices : Nat := (32 + 1) * (32 + 1)

/-- `let num_indices = (32) * (32)` (load_chunks.rs line 62). -/
def stagingNumIndices : Nat := 32 * 32

/-- Vertex staging-buffer size `num_vertices * 8 * size_of::<f32>()`
(load_chunks.rs line 65). -/
def stagingVertexSize : Nat := stagingNumVertices * 8 * 4

/-- Index staging-buffer size `num_indices * 6 * size_of::<u32>()`
(load_chunks.rs line 72). -/
def stagingIndexSize : Nat := stagingNumIndices * 6 * 4

/-! ## The `ComputeWorld::load_chunks` loop -/

/-- `Vec` indexing `anchor_coords[i]` (load_chunks.rs line 59): panics when out
of bounds. -/
def vecIdx (v : List Int) (i : Nat) : PanicOr Int :=
  match v.get? i with
  | some x => .ok x
  | none => .panicked "index out of bounds"

/-- `dst.copy_from_slice(src)`: panics unless the lengths agree, otherwise the
destination becomes a copy of the source. -/
def copyFromSlice (dst src : List Nat) : PanicOr (List Nat) :=
  if src.length = dst.length then .ok src
  else .panicked "source slice length does not match destination slice length"

/-- Vertex readback (load_chunks.rs lines 90-119): on completion-signal success
copy the mapped range into the `[u8; 34848]` array, otherwise
`panic!("failed to ingest vertex data!")`. -/
def ingestVertex (sig : Bool) (mapped : List Nat) : PanicOr (List Nat) :=
  if sig then copyFromSlice (List.replicate 34848 0) mapped
  else .panicked "failed to ingest vertex data!"

/-- Index readback (load_chunks.rs lines 134-147): on completion-signal success
copy the mapped range into the `[u8; 24576]` array, otherwise
`panic!("failed to ingest index data!")`. -/
def ingestIndex (sig : Bool) (mapped : List Nat) : PanicOr (List Nat) :=
  if sig then copyFromSlice (List.replicate 24576 0) mapped
  else .panicked "failed to ingest index data!"

/-- The `for (chunk_key, anchor_coords) in anchor_coords.iter()` loop of
`ComputeWorld::load_chunks` (load_chunks.rs lines 52-154).  Arguments:
remaining requested entries, the current `self.chunks` (entries are `remove`d
as they are carried forward), the `new_chunks` accumulator, and a ghost list
recording which keys were generated (used only to state theorems; it does not
influence the computation). -/
def loadChunksGo (genV genI : Int → Int → List Nat) (sigV sigI : String → Bool) :
    List (String × List Int) → List (String × RawBufferData) →
    List (String × RawBufferData) → List String →
    PanicOr (List (String × RawBufferData) × List String)
  | [], _, acc, gens => .ok (acc, gens)
  | (key, coords) :: rest, chunks, acc, gens =>
    match mapLookup key chunks with
    | some c => loadChunksGo genV genI sigV sigI rest (mapErase key chunks)
        (mapInsert key c acc) gens
    | none =>
      PanicOr.bindp (vecIdx coords 0) fun x =>
      PanicOr.bindp (vecIdx coords 1) fun z =>
      PanicOr.bindp (ingestVertex (sigV key) (genV x z)) fun vbytes =>
      PanicOr.bindp (ingestIndex (sigI key) (genI x z)) fun ibytes =>
      loadChunksGo genV genI sigV sigI rest chunks
        (mapInsert key ⟨vbytes, ibytes⟩ acc) (gens ++ [key])

/-- Embedding of `ComputeWorld::load_chunks` (load_chunks.rs lines 44-157).
On normal completion the new cache (`self.chunks = new_chunks`, line 156) is
returned together with the ghost list of generated keys; a `panic!` anywhere
in the loop yields `PanicOr.panicked` and no assignment to `self.chunks`
happens. -/
def loadChunks (genV genI : Int → Int → List Nat) (sigV sigI : String → Bool)
    (chunks : List (String × RawBufferData)) (anchorCoords : List (String × List Int)) :
    PanicOr (List (String × RawBufferData) × List String) :=
  loadChunksGo genV genI sigV sigI anchorCoords chunks [] []

/-- Readback tail of `RayIntersectPipeline::ray_intersect`
(ray_intersection.rs lines 211-227): on completion-signal success the first
scalar of the mapped staging range is returned, otherwise
`panic!("failed to run compute on gpu!")`.  The scalar computed by the
dispatch is abstracted as `result`. -/
def rayIntersect {α : Type} (sig : Bool) (result : α) : PanicOr α :=
  if sig then .ok result else .panicked "failed to run compute on gpu!"

/-! ### A closed form for the successful run of the loop -/

/-- The cache that `loadChunksGo` assembles when every readback succeeds:
carried-forward entries keep their bytes, absent keys get generated data. -/
def produced (genV genI : Int → Int → List Nat) :
    List (String × List Int) → List (String × RawBufferData) →
    List (String × RawBufferData)
  | [], _ => []
  | (key, coords) :: rest, chunks =>
    match mapLookup key chunks with
    | some c => (key, c) :: produced genV genI rest (mapErase key chunks)
    | none =>
      (key, ⟨genV (coords.getD 0 0) (coords.getD 1 0),
             genI (coords.getD 0 0) (coords.getD 1 0)⟩) ::
        produced genV genI rest chunks

/-- The keys `loadChunksGo` generates (the absent ones), in request order. -/
def genKeys : List (String × List Int) → List (String × RawBufferData) → List String
  | [], _ => []
  | (key, _) :: rest, chunks =>
    match mapLookup key chunks with
    | some _ => genKeys rest (mapErase key chunks)
    | none => key :: genKeys rest chunks

theorem loadChunksGo_ok (genV genI : Int → Int → List Nat) (sigV sigI : String → Bool)
    (hsig : ∀ k, sigV k = true ∧ sigI k = true)
    (hgen : ∀ x z, (genV x z).length = 34848 ∧ (genI x z).length = 24576) :
    ∀ (req : List (String × List Int)) (chunks acc : List (String × RawBufferData))
      (gens : List String),
      (∀ p ∈ req, 2 ≤ (p.2).length) →
      (∀ k ∈ mapKeys acc, mapLookup k req = none) →
      (mapKeys req).Nodup →
      loadChunksGo genV genI sigV sigI req chunks acc gens =
        .ok (acc ++ produced genV genI req chunks, gens ++ genKeys req chunks) := by
  intro req
  induction req with
  | nil => intro chunks acc gens _ _ _; simp [loadChunksGo, produced, genKeys]
  | cons p rest ih =>
    obtain ⟨key, coords⟩ := p
    intro chunks acc gens hcoords hdisj hnd
    simp only [mapKeys, List.map_cons, List.nodup_cons] at hnd
    have hkey_rest : mapLookup key rest = none := by
      cases hlk : mapLookup key rest with
      | none => rfl
      | some w =>
        exact absurd (List.mem_map_of_mem Prod.fst (mapLookup_mem _ _ _ hlk)) hnd.1
    have hkacc : mapLookup key acc = none := by
      cases hlk : mapLookup key acc with
      | none => rfl
      | some w =>
        have hmem : key ∈ mapKeys acc :=
          List.mem_map_of_mem Prod.fst (mapLookup_mem _ _ _ hlk)
        have := hdisj key hmem
        simp at this
    have hdisj' : ∀ (c : RawBufferData), ∀ k ∈ mapKeys (mapInsert key c acc),
        mapLookup k rest = none := by
      intro c k hk
      unfold mapInsert at hk
      simp only [mapKeys, List.map_append] at hk
      rcases List.mem_append.1 hk with hk | hk
      · have hk2 : k ∈ mapKeys acc := by
          simp only [mapKeys]
          exact List.mem_map.2 (by
            rcases List.mem_map.1 hk with ⟨q, hq, rfl⟩
            exact ⟨q, mem_of_mem_erase key q acc hq, rfl⟩)
        have := hdisj k hk2
        simp only [mapLookup_cons] at this
        by_cases hkk : key = k
        · simp [hkk] at this
        · simpa [hkk] using this
      · simp at hk
        subst hk
        exact hkey_rest
    have hcr : ∀ p ∈ rest, 2 ≤ (p.2).length := fun q hq => hcoords q (by simp [hq])
    cases hlk : mapLookup key chunks with
    | some c =>
      simp only [loadChunksGo, hlk]
      rw [ih (mapErase key chunks) (mapInsert key c acc) gens hcr (hdisj' c) hnd.2]
      simp [produced, genKeys, hlk, mapInsert_of_lookup_none key c acc hkacc,
        mapInsert_of_lookup_none, List.append_assoc]
    | none =>
      have h2 : 2 ≤ coords.length := hcoords (key, coords) (by simp)
      have h0 : coords.get? 0 = some (coords.getD 0 0) := by
        cases coords with
        | nil => simp at h2
        | cons a as => simp [List.getD]
      have h1 : coords.get? 1 = some (coords.getD 1 0) := by
        cases coords with
        | nil => simp at h2
        | cons a as =>
          cases as with
          | nil => simp at h2
          | cons b bs => simp [List.getD]
      have hx := (hgen (coords.getD 0 0) (coords.getD 1 0)).1
      have hz := (hgen (coords.getD 0 0) (coords.getD 1 0)).2
      have hsv := (hsig key).1
      have hsi := (hsig key).2
      simp only [loadChunksGo, hlk, vecIdx, h0, h1, PanicOr.bindp_ok, ingestVertex,
        ingestIndex, hsv, hsi, if_true, copyFromSlice, List.length_replicate, hx, hz,
        if_pos rfl]
      rw [ih chunks (mapInsert key _ acc) (gens ++ [key]) hcr (hdisj' _) hnd.2]
      simp [produced, genKeys, hlk, mapInsert_of_lookup_none key _ acc hkacc,
        List.append_assoc]

theorem loadChunks_ok (genV genI : Int → Int → List Nat) (sigV sigI : String → Bool)
    (chunks : List (String × RawBufferData)) (req : List (String × List Int))
    (hsig : ∀ k, sigV k = true ∧ sigI k = true)
    (hgen : ∀ x z, (genV x z).length = 34848 ∧ (genI x z).length = 24576)
    (hcoords : ∀ p ∈ req, 2 ≤ (p.2).length)
    (hnd : (mapKeys req).Nodup) :
    loadChunks genV genI sigV sigI chunks req =
      .ok (produced genV genI req chunks, genKeys req chunks) := by
  unfold loadChunks
  rw [loadChunksGo_ok genV genI sigV sigI hsig hgen req chunks [] []
    hcoords (by simp [mapKeys]) hnd]
  simp

/-! ### Lookup structure of `produced` -/

theorem produced_lookup_none (genV genI : Int → Int → List Nat) (k : String) :
    ∀ (req : List (String × List Int)) (chunks : List (String × RawBufferData)),
      mapLookup k req = none →
      mapLookup k (produced genV genI req chunks) = none := by
  intro req
  induction req with
  | nil => intro chunks _; simp [produced]
  | cons p rest ih =>
    obtain ⟨key, coords⟩ := p
    intro chunks h
    simp only [mapLookup_cons] at h
    by_cases hk : key = k
    · simp [hk] at h
    · simp only [if_neg hk] at h
      cases hlk : mapLookup key chunks with
      | some c => simp [produced, hlk, hk, ih _ h]
      | none => simp [produced, hlk, hk, ih _ h]

theorem produced_lookup_carried (genV genI : Int → Int → List Nat) (k : String)
    (c : RawBufferData) :
    ∀ (req : List (String × List Int)) (chunks : List (String × RawBufferData)),
      mapLookup k req ≠ none →
      mapLookup k chunks = some c →
      mapLookup k (produced genV genI req chunks) = some c := by
  intro req
  induction req with
  | nil => intro chunks h _; simp at h
  | cons p rest ih =>
    obtain ⟨key, coords⟩ := p
    intro chunks hreq hc
    by_cases hk : key = k
    · subst hk
      simp [produced, hc]
    · simp only [mapLookup_cons, if_neg hk] at hreq
      cases hlk : mapLookup key chunks with
      | some d =>
        have hc2 : mapLookup k (mapErase key chunks) = some c := by
          rw [mapLookup_erase]; simp [hk, hc]
        simp [produced, hlk, hk, ih _ hreq hc2]
      | none => simp [produced, hlk, hk, ih _ hreq hc]

theorem produced_lookup_generated (genV genI : Int → Int → List Nat) (k : String)
    (coords : List Int) :
    ∀ (req : List (String × List Int)) (chunks : List (String × RawBufferData)),
      mapLookup k req = some coords →
      mapLookup k chunks = none →
      mapLookup k (produced genV genI req chunks) =
        some ⟨genV (coords.getD 0 0) (coords.getD 1 0),
              genI (coords.getD 0 0) (coords.getD 1 0)⟩ := by
  intro req
  induction req with
  | nil => intro chunks h _; simp at h
  | cons p rest ih =>
    obtain ⟨key, coords0⟩ := p
    intro chunks hreq hc
    by_cases hk : key = k
    · subst hk
      simp only [mapLookup_cons, if_pos rfl] at hreq
      cases hreq
      simp [produced, hc]
    · simp only [mapLookup_cons, if_neg hk] at hreq
      cases hlk : mapLookup key chunks with
      | some d =>
        have hc2 : mapLookup k (mapErase key chunks) = none := by
          rw [mapLookup_erase]; simp [hk, hc]
        simp [produced, hlk, hk, ih _ hreq hc2]
      | none => simp [produced, hlk, hk, ih _ hreq hc]

theorem genKeys_mem (k : String) :
    ∀ (req : List (String × List Int)) (chunks : List (String × RawBufferData)),
      (mapKeys req).Nodup →
      (k ∈ genKeys req chunks ↔ (mapLookup k req ≠ none ∧ mapLookup k chunks = none)) := by
  intro req
  induction req with
  | nil => intro chunks _; simp [genKeys]
  | cons p rest ih =>
    obtain ⟨key, coords⟩ := p
    intro chunks hnd
    simp only [mapKeys, List.map_cons, List.nodup_cons] at hnd
    have hkey_rest : mapLookup key rest = none := by
      cases hlk : mapLookup key rest with
      | none => rfl
      | some w =>
        exact absurd (List.mem_map_of_mem Prod.fst (mapLookup_mem _ _ _ hlk)) hnd.1
    by_cases hk : key = k
    · subst hk
      cases hlk : mapLookup key chunks with
      | some c =>
        simp only [genKeys, hlk]
        rw [ih (mapErase key chunks) hnd.2]
        simp [hkey_rest, hlk]
      | none => simp [genKeys, hlk]
    · cases hlk : mapLookup key chunks with
      | some c =>
        simp only [genKeys, hlk]
        rw [ih (mapErase key chunks) hnd.2]
        simp [mapLookup_erase, hk]
      | none =>
        simp only [genKeys, hlk, List.mem_cons]
        rw [ih chunks hnd.2]
        simp [hk, Ne.symm hk]

theorem produced_keys (genV genI : Int → Int → List Nat) :
    ∀ (req : List (String × List Int)) (chunks : List (String × RawBufferData)),
      mapKeys (produced genV genI req chunks) = mapKeys req := by
  intro req
  induction req with
  | nil => intro chunks; simp [produced, mapKeys]
  | cons p rest ih =>
    obtain ⟨key, coords⟩ := p
    intro chunks
    cases hlk : mapLookup key chunks with
    | some c => simp [produced, hlk, mapKeys, ih] ; exact ih _
    | none => simp [produced, hlk, mapKeys] ; exact ih _

theorem produced_sized (genV genI : Int → Int → List Nat)
    (hgen : ∀ x z, (genV x z).length = 34848 ∧ (genI x z).length = 24576) :
    ∀ (req : List (String × List Int)) (chunks : List (String × RawBufferData)),
      (∀ p ∈ chunks, (p.2).sized) →
      ∀ p ∈ produced genV genI req chunks, (p.2).sized := by
  intro req
  induction req with
  | nil => intro chunks _ p hp; simp [produced] at hp
  | cons q rest ih =>
    obtain ⟨key, coords⟩ := q
    intro chunks hch p hp
    cases hlk : mapLookup key chunks with
    | some c =>
      simp only [produced, hlk, List.mem_cons] at hp
      rcases hp with rfl | hp
      · exact hch (key, c) (mapLookup_mem _ _ _ hlk)
      · exact ih (mapErase key chunks)
          (fun r hr => hch r (mem_of_mem_erase key r chunks hr)) p hp
    | none =>
      simp only [produced, hlk, List.mem_cons] at hp
      rcases hp with rfl | hp
      · exact ⟨(hgen _ _).1, (hgen _ _).2⟩
      · exact ih chunks hch p hp

theorem mapLookup_eq_none_of_not_mem {α : Type} (k : String) (m : List (String × α))
    (h : k ∉ mapKeys m) : mapLookup k m = none := by
  cases hlk : mapLookup k m with
  | none => rfl
  | some v => exact absurd (List.mem_map_of_mem Prod.fst (mapLookup_mem _ _ _ hlk)) h

/-- Running the assembly a second time over a cache with exactly the requested
keys carries every entry forward verbatim and generates nothing. -/
theorem produced_self (genV genI : Int → Int → List Nat) :
    ∀ (req : List (String × List Int)) (cache : List (String × RawBufferData)),
      (mapKeys req).Nodup →
      mapKeys cache = mapKeys req →
      produced genV genI req cache = cache ∧ genKeys req cache = [] := by
  intro req
  induction req with
  | nil =>
    intro cache _ hk
    have : cache = [] := by
      cases cache with
      | nil => rfl
      | cons p rest => simp [mapKeys] at hk
    subst this
    simp [produced, genKeys]
  | cons p rest ih =>
    obtain ⟨key, coords⟩ := p
    intro cache hnd hk
    simp only [mapKeys, List.map_cons, List.nodup_cons] at hnd
    cases cache with
    | nil => simp [mapKeys] at hk
    | cons q cache2 =>
      obtain ⟨j, v⟩ := q
      simp only [mapKeys, List.map_cons, List.cons.injEq] at hk
      obtain ⟨rfl, hk2⟩ := hk
      have hlk : mapLookup j ((j, v) :: cache2) = some v := by simp
      have hnotm : j ∉ mapKeys cache2 := by
        unfold mapKeys; rw [hk2]; exact hnd.1
      have herase : mapErase j ((j, v) :: cache2) = cache2 := by
        simp only [mapErase, if_pos rfl]
        exact mapErase_of_lookup_none j cache2 (mapLookup_eq_none_of_not_mem _ _ hnotm)
      have := ih cache2 hnd.2 hk2
      constructor
      · simp only [produced, hlk, herase, this.1]
      · simp only [genKeys, hlk, herase, this.2]

/-- A false vertex-readback signal for any requested, non-cached key aborts the
whole `load_chunks` pass: the loop can only end in a panic. -/
theorem loadChunksGo_fail (genV genI : Int → Int → List Nat) (sigV sigI : String → Bool)
    (key : String) (hsig : sigV key = false) :
    ∀ (req : List (String × List Int)) (chunks acc : List (String × RawBufferData))
      (gens : List String),
      mapLookup key req ≠ none →
      mapLookup key chunks = none →
      ∀ out, loadChunksGo genV genI sigV sigI req chunks acc gens ≠ .ok out := by
  intro req
  induction req with
  | nil => intro chunks acc gens hreq _ out; simp at hreq
  | cons p rest ih =>
    obtain ⟨j, coords⟩ := p
    intro chunks acc gens hreq hch out
    by_cases hjk : j = key
    · subst hjk
      simp only [loadChunksGo, hch]
      cases vecIdx coords 0 with
      | panicked msg => simp
      | ok x =>
        cases vecIdx coords 1 with
        | panicked msg => simp
        | ok z => simp [ingestVertex, hsig]
    · simp only [mapLookup_cons, if_neg hjk] at hreq
      cases hlk : mapLookup j chunks with
      | some c =>
        simp only [loadChunksGo, hlk]
        exact ih (mapErase j chunks) (mapInsert j c acc) gens hreq
          (by rw [mapLookup_erase]; simp [hjk, hch]) out
      | none =>
        simp only [loadChunksGo, hlk]
        cases h0 : vecIdx coords 0 with
        | panicked msg => simp [h0]
        | ok x =>
          cases h1 : vecIdx coords 1 with
          | panicked msg => simp [h1]
          | ok z =>
            cases hv : ingestVertex (sigV j) (genV x z) with
            | panicked msg => simp [hv]
            | ok vb =>
              cases hi : ingestIndex (sigI j) (genI x z) with
              | panicked msg => simp [hv, hi]
              | ok ib =>
                simp only [PanicOr.bindp_ok, hv, hi]
                exact ih chunks (mapInsert j ⟨vb, ib⟩ acc) (gens ++ [j]) hreq hch out

/-! ## The background producer tick

Embedding of the body of the `tokio::spawn` loop in `run`
(run.rs lines 131-154): snapshot the requested chunks, run
`ComputeWorld::load_chunks`, then merge the *entire* resulting chunk cache
into the shared staging map with `x.extend(world_compute.chunks.clone())`
(run.rs lines 146-148). -/

def producerTick (genV genI : Int → Int → List Nat) (sigV sigI : String → Bool)
    (chunks staged : List (String × RawBufferData))
    (requested : List (String × List Int)) :
    PanicOr (List (String × RawBufferData) × List (String × RawBufferData)) :=
  match loadChunks genV genI sigV sigI chunks requested with
  | .panicked msg => .panicked msg
  | .ok (newChunks, _) => .ok (newChunks, mapExtend staged newChunks)

/-! ## Decimal formatting and parsing of chunk-key components

`World::get_chunk` builds its key with `format!("{x_coord},{z_coord}")`
(world/mod.rs line 62).  The formatted values are integer-valued floats
(truncated multiples of 16), which Rust's `Display` prints as plain signed
decimal integers.  `natChars`/`intChars` reproduce that formatting; the
parsing functions witness that the format is round-trippable. -/

def digitChr (d : Nat) : Char :=
  match d with
  | 0 => '0' | 1 => '1' | 2 => '2' | 3 => '3' | 4 => '4'
  | 5 => '5' | 6 => '6' | 7 => '7' | 8 => '8' | _ => '9'

def digitVal (c : Char) : Option Nat :=
  if c = '0' then some 0 else if c = '1' then some 1 else if c = '2' then some 2
  else if c = '3' then some 3 else if c = '4' then some 4 else if c = '5' then some 5
  else if c = '6' then some 6 else if c = '7' then some 7 else if c = '8' then some 8
  else if c = '9' then some 9 else none

/-- Most-significant-digit-first decimal printing, by structural recursion on a
fuel argument (any fuel with `n < 10 ^ fuel` gives the digits of `n`). -/
def natCharsAux : Nat → Nat → List Char
  | 0, _ => []
  | fuel + 1, n =>
    if n < 10 then [digitChr n]
    else natCharsAux fuel (n / 10) ++ [digitChr (n % 10)]

def natChars (n : Nat) : List Char := natCharsAux (n + 1) n

def intChars (x : Int) : List Char :=
  if x < 0 then '-' :: natChars x.natAbs else natChars x.toNat

def parseNatAux : Nat → List Char → Option Nat
  | acc, [] => some acc
  | acc, c :: cs =>
    match digitVal c with
    | some d => parseNatAux (acc * 10 + d) cs
    | none => none

def parseNat (cs : List Char) : Option Nat :=
  match cs with
  | [] => none
  | _ => parseNatAux 0 cs

def parseInt (cs : List Char) : Option Int :=
  match cs with
  | [] => none
  | c :: rest =>
    if c = '-' then (parseNat rest).map (fun n => -(n : Int))
    else (parseNat (c :: rest)).map (fun n => (n : Int))

theorem digitVal_digitChr : ∀ d, d < 10 → digitVal (digitChr d) = some d := by decide

theorem digitChr_ne_comma : ∀ d, d < 10 → digitChr d ≠ ',' := by decide

theorem digitChr_ne_minus : ∀ d, d < 10 → digitChr d ≠ '-' := by decide

theorem parseNatAux_append (xs ys : List Char) :
    ∀ acc, parseNatAux acc (xs ++ ys) =
      match parseNatAux acc xs with
      | some a => parseNatAux a ys
      | none => none := by
  induction xs with
  | nil => intro acc; simp [parseNatAux]
  | cons c cs ih =>
    intro acc
    simp only [List.cons_append, parseNatAux]
    cases digitVal c with
    | some d => exact ih (acc * 10 + d)
    | none => rfl

theorem natCharsAux_digit (fuel : Nat) :
    ∀ n, ∀ c ∈ natCharsAux fuel n, ∃ d, d < 10 ∧ c = digitChr d := by
  induction fuel with
  | zero => intro n c hc; simp [natCharsAux] at hc
  | succ fuel ih =>
    intro n c hc
    by_cases h : n < 10
    · simp only [natCharsAux, if_pos h, List.mem_singleton] at hc
      exact ⟨n, h, hc⟩
    · simp only [natCharsAux, if_neg h, List.mem_append, List.mem_singleton] at hc
      rcases hc with hc | hc
      · exact ih (n / 10) c hc
      · exact ⟨n % 10, Nat.mod_lt _ (by omega), hc⟩

theorem natCharsAux_ne_nil (fuel n : Nat) (h : 0 < fuel) : natCharsAux fuel n ≠ [] := by
  cases fuel with
  | zero => omega
  | succ fuel =>
    by_cases hn : n < 10 <;> simp [natCharsAux, hn]

theorem natCharsAux_parse (fuel : Nat) :
    ∀ n, n < 10 ^ fuel → ∀ acc,
      parseNatAux acc (natCharsAux fuel n) =
        some (acc * 10 ^ (natCharsAux fuel n).length + n) := by
  induction fuel with
  | zero =>
    intro n hn acc
    have : n = 0 := by simpa using hn
    subst this
    simp [natCharsAux, parseNatAux]
  | succ fuel ih =>
    intro n hn acc
    by_cases h : n < 10
    · simp [natCharsAux, h, parseNatAux, digitVal_digitChr n h]
    · have hdiv : n / 10 < 10 ^ fuel := by
        rw [Nat.div_lt_iff_lt_mul (by omega)]
        calc n < 10 ^ (fuel + 1) := hn
        _ = 10 ^ fuel * 10 := by ring
      simp only [natCharsAux, if_neg h]
      rw [parseNatAux_append]
      rw [ih (n / 10) hdiv acc]
      simp only [parseNatAux, digitVal_digitChr (n % 10) (Nat.mod_lt _ (by omega))]
      rw [List.length_append]
      congr 1
      have hmod : n % 10 < 10 := Nat.mod_lt _ (by omega)
      have hdm : n / 10 * 10 + n % 10 = n := by omega
      simp only [List.length_singleton]
      ring_nf
      omega

theorem parseNat_natChars (n : Nat) : parseNat (natChars n) = some n := by
  have hne : natChars n ≠ [] := natCharsAux_ne_nil (n + 1) n (by omega)
  have hlt : n < 10 ^ (n + 1) := by
    calc n < n + 1 := by omega
    _ ≤ 10 ^ (n + 1) := le_of_lt (Nat.lt_pow_self (by omega) (n + 1))
  have hparse : parseNatAux 0 (natChars n) = some n := by
    unfold natChars
    rw [natCharsAux_parse (n + 1) n hlt 0]
    simp
  unfold parseNat
  cases hcs : natChars n with
  | nil => exact absurd hcs hne
  | cons c cs =>
    show parseNatAux 0 (c :: cs) = some n
    rw [← hcs]
    exact hparse

theorem natChars_digit (n : Nat) (c : Char) (hc : c ∈ natChars n) :
    ∃ d, d < 10 ∧ c = digitChr d :=
  natCharsAux_digit (n + 1) n c hc

theorem natChars_head_ne_minus (n : Nat) (c : Char) (cs : List Char)
    (h : natChars n = c :: cs) : c ≠ '-' := by
  have hc : c ∈ natChars n := by rw [h]; simp
  obtain ⟨d, hd, rfl⟩ := natChars_digit n c hc
  exact digitChr_ne_minus d hd

theorem parseInt_intChars (x : Int) : parseInt (intChars x) = some x := by
  by_cases hx : x < 0
  · simp only [intChars, if_pos hx, parseInt]
    simp only [if_pos rfl, parseNat_natChars, Option.map_some']
    have habs : ((x.natAbs : Int)) = -x := by omega
    simp [habs]
  · simp only [intChars, if_neg hx]
    have hne : natChars x.toNat ≠ [] := natCharsAux_ne_nil _ _ (by omega)
    cases hcs : natChars x.toNat with
    | nil => exact absurd hcs hne
    | cons c cs =>
      have hcm : c ≠ '-' := natChars_head_ne_minus _ _ _ hcs
      simp only [parseInt, if_neg hcm]
      rw [← hcs, parseNat_natChars]
      simp
      omega

theorem intChars_no_comma (x : Int) (c : Char) (hc : c ∈ intChars x) : c ≠ ',' := by
  unfold intChars at hc
  by_cases hx : x < 0
  · simp only [if_pos hx, List.mem_cons] at hc
    rcases hc with rfl | hc
    · decide
    · obtain ⟨d, hd, rfl⟩ := natChars_digit _ c hc
      exact digitChr_ne_comma d hd
  · simp only [if_neg hx] at hc
    obtain ⟨d, hd, rfl⟩ := natChars_digit _ c hc
    exact digitChr_ne_comma d hd

/-- Split a character list at its first comma. -/
def splitAtComma : List Char → Option (List Char × List Char)
  | [] => none
  | c :: rest =>
    if c = ',' then some ([], rest)
    else (splitAtComma rest).map (fun p => (c :: p.1, p.2))

theorem splitAtComma_append (xs ys : List Char) (hxs : ∀ c ∈ xs, c ≠ ',') :
    splitAtComma (xs ++ ',' :: ys) = some (xs, ys) := by
  induction xs with
  | nil => simp [splitAtComma]
  | cons c cs ih =>
    have hc : c ≠ ',' := hxs c (by simp)
    simp only [List.cons_append, splitAtComma, if_neg hc, List.append_eq]
    rw [ih (fun d hd => hxs d (by simp [hd]))]
    rfl

/-! ## Float model and the corner/key computation of `World::get_chunk`

`World::get_chunk` (world/mod.rs lines 46-82) computes, per axis,
`(position.x / CHUNKSIZE).trunc() * CHUNKSIZE` with `CHUNKSIZE = 16.0`,
normalizes a `-0.0` result to `0.0`, and forms the cache key
`format!("{x_coord},{z_coord}")`.  `SFloat` models the `f32` values on this
path as a rational plus the IEEE sign bit; the sign bit only matters for
values equal to zero (where it decides whether `Display` prints `-0` or `0`).
Division by 16 (a power of two), `trunc`, and multiplication by 16 are exact
in `f32` on the magnitudes involved, so the rational component tracks the
float exactly. -/

/-- Truncation toward zero of a rational, the semantics of Rust
`f32::trunc`. -/
def ratTrunc (q : ℚ) : Int := if 0 ≤ q then ⌊q⌋ else ⌈q⌉

theorem ratTrunc_intCast (k : Int) : ratTrunc (k : ℚ) = k := by
  unfold ratTrunc
  by_cases h : (0 : ℚ) ≤ (k : ℚ)
  · rw [if_pos h, Int.floor_intCast]
  · rw [if_neg h, Int.ceil_intCast]

theorem ratTrunc_zero : ratTrunc 0 = 0 := by
  simpa using ratTrunc_intCast 0

structure SFloat where
  val : ℚ
  negSign : Bool
deriving DecidableEq

def SFloat.ofRat (q : ℚ) : SFloat := ⟨q, decide (q < 0)⟩

/-- The `f32` value `-0.0`. -/
def negZeroF : SFloat := ⟨0, true⟩

/-- `position.x / CHUNKSIZE`: dividing by positive 16 keeps the sign bit. -/
def fdiv16 (f : SFloat) : SFloat := ⟨f.val / 16, f.negSign⟩

/-- `f32::trunc`: rounds toward zero and preserves the sign bit (IEEE
`trunc(-0.3) = -0.0`). -/
def ftruncF (f : SFloat) : SFloat := ⟨(ratTrunc f.val : ℚ), f.negSign⟩

/-- `* CHUNKSIZE`: multiplying by positive 16 keeps the sign bit. -/
def fmul16 (f : SFloat) : SFloat := ⟨f.val * 16, f.negSign⟩

/-- `if x_coord == -0.0 { x_coord = 0.0 }` (world/mod.rs lines 54-60): the
IEEE `==` test holds exactly when the value is zero of either sign, and the
assignment installs positive zero. -/
def normalizeNegZero (f : SFloat) : SFloat := if f.val = 0 then ⟨0, false⟩ else f

/-- One axis of the corner computation of `World::get_chunk`
(world/mod.rs lines 51-60):
`(position.x / CHUNKSIZE).trunc() * CHUNKSIZE`, then `-0.0` normalization. -/
def xCoordF (p : SFloat) : SFloat := normalizeNegZero (fmul16 (ftruncF (fdiv16 p)))

/-- Rust `Display` output for the integer-valued `f32` corner coordinates:
`-0.0` prints as `-0`, every other value on this path is an integer and
prints as its signed decimal numeral. -/
def fmtCorner (f : SFloat) : List Char :=
  if f.negSign = true ∧ f.val = 0 then ['-', '0'] else intChars (ratTrunc f.val)

/-- The chunk key `format!("{x_coord},{z_coord}")` of `World::get_chunk`
(world/mod.rs line 62), including the corner computation for both axes. -/
def getChunkKey (px pz : SFloat) : String :=
  String.mk (fmtCorner (xCoordF px) ++ ',' :: fmtCorner (xCoordF pz))

/-- Parse a chunk key back into its integer coordinate pair (split at the
first comma, parse both sides as signed decimal integers). -/
def parseChunkKey (s : String) : Option (Int × Int) :=
  match splitAtComma s.data with
  | none => none
  | some (a, b) =>
    match parseInt a, parseInt b with
    | some x, some z => some (x, z)
    | _, _ => none

/-- The corner map claimed by the specification: *flooring* division by the
chunk edge length, then scaling back up (stated for comparison with the
truncating computation the code performs). -/
def specFloorCorner (q : ℚ) : ℚ := (⌊q / 16⌋ : ℚ) * 16

theorem xCoordF_val (p : SFloat) :
    (xCoordF p).val = (ratTrunc (p.val / 16) : ℚ) * 16 := by
  unfold xCoordF normalizeNegZero fmul16 ftruncF fdiv16
  by_cases h : (ratTrunc (p.val / 16) : ℚ) * 16 = 0
  · simp [h]
  · simp [h]

theorem fmtCorner_xCoordF (p : SFloat) :
    fmtCorner (xCoordF p) = intChars (ratTrunc (p.val / 16) * 16) := by
  unfold xCoordF normalizeNegZero fmul16 ftruncF fdiv16
  set t := ratTrunc (p.val / 16) with ht
  by_cases h : (t : ℚ) * 16 = 0
  · have ht0 : t = 0 := by
      rcases mul_eq_zero.mp h with h0 | h0
      · exact_mod_cast h0
      · norm_num at h0
    simp only [if_pos h]
    unfold fmtCorner
    simp [ht0, ratTrunc_zero]
  · simp only [if_neg h]
    unfold fmtCorner
    show (if p.negSign = true ∧ (t : ℚ) * 16 = 0 then ['-', '0']
      else intChars (ratTrunc ((t : ℚ) * 16))) = intChars (t * 16)
    have hcond : ¬(p.negSign = true ∧ (t : ℚ) * 16 = 0) := fun hc => h hc.2
    have hcast : (t : ℚ) * 16 = ((t * 16 : Int) : ℚ) := by push_cast; ring
    rw [if_neg hcond, hcast, ratTrunc_intCast]

theorem getChunkKey_parse (px pz : SFloat) :
    parseChunkKey (getChunkKey px pz) =
      some (ratTrunc (px.val / 16) * 16, ratTrunc (pz.val / 16) * 16) := by
  unfold parseChunkKey getChunkKey
  have hdata : (String.mk (fmtCorner (xCoordF px) ++ ',' :: fmtCorner (xCoordF pz))).data
      = fmtCorner (xCoordF px) ++ ',' :: fmtCorner (xCoordF pz) := rfl
  rw [hdata, fmtCorner_xCoordF, fmtCorner_xCoordF]
  rw [splitAtComma_append _ _ (intChars_no_comma _)]
  simp [parseInt_intChars]

/-! ## The consumer-side window bookkeeping

The consumer loop in `run` (run.rs lines 192-210) drains the shared staging
map into `state.world.raw_buffer_data`, calls `state.world.load_chunks(pos)`,
and publishes `state.world.requested_chunks`.  The type of `state.world` -
with its `resident` geometry, `requested_chunks`, `raw_buffer_data` fields and
its `load_chunks` planner - is not among the provided source files; only its
caller in run.rs is.  The definitions below therefore model it from the
specification (sections 4.4 and 4.5). -/

/-- Modelled from the spec: the consumer `World` state behind `state.world` in
run.rs (its source file is not provided).  `resident` is ResidentChunks,
`requested` is RequestedChunks (key to anchor coordinate pair),
`raw_buffer_data` is the drained staging batch pending ingestion. -/
structure ConsumerWorld where
  resident : List (String × RawBufferData)
  requested : List (String × (Int × Int))
  raw_buffer_data : List (String × RawBufferData)

/-- Modelled from the spec: the `"{x}_{z}"` chunk key of the consumer side
(spec section 3, ChunkKey). -/
def underscoreKey (x z : Int) : String :=
  String.mk (intChars x ++ '_' :: intChars z)

/-- Modelled from the spec: the disk test `i² + z² ≤ r² + 1` (spec section
4.4). -/
def diskOK (r : Nat) (o : Int × Int) : Bool :=
  decide (o.1 * o.1 + o.2 * o.2 ≤ (r : Int) * r + 1)

/-- Modelled from the spec: the `(2r+1) × (2r+1)` grid of chunk offsets
around the viewer (spec section 4.4). -/
def windowOffsets (r : Nat) : List (Int × Int) :=
  ((List.range (2 * r + 1)).map (fun i => (i : Int) - r)).flatMap
    (fun i => ((List.range (2 * r + 1)).map (fun z => (z : Int) - r)).map
      (fun z => (i, z)))

/-- Modelled from the spec: one planner pass over the candidate offsets (spec
section 4.4, steps 2-4).  For each offset passing the disk test: a key already
resident is carried into the new resident set (and its pending request is
thereby dropped, since the request set is rebuilt); a key not resident gets
exactly one entry in the new request set. -/
def planGo (resident : List (String × RawBufferData)) (corner : Int × Int) :
    List (Int × Int) → List (String × RawBufferData) → List (String × (Int × Int)) →
    List (String × RawBufferData) × List (String × (Int × Int))
  | [], newRes, newReq => (newRes, newReq)
  | o :: os, newRes, newReq =>
    let ax := corner.1 + o.1 * 32
    let az := corner.2 + o.2 * 32
    let key := underscoreKey ax az
    match mapLookup key resident with
    | some g => planGo resident corner os (mapInsert key g newRes) newReq
    | none => planGo resident corner os newRes
        (if mapLookup key newReq = none then newReq ++ [(key, (ax, az))] else newReq)

/-- Modelled from the spec: a planner pass filters candidates by the disk test
first (spec section 4.4, step 3).  Both output maps are rebuilt from scratch;
the prior resident set is replaced wholesale (step 4) and stale requests are
dropped (section 4.5). -/
def plannerPass (r : Nat) (corner : Int × Int)
    (resident : List (String × RawBufferData)) :
    List (String × RawBufferData) × List (String × (Int × Int)) :=
  planGo resident corner ((windowOffsets r).filter (diskOK r)) [] []

/-- Modelled from the spec: ingestion of the drained staging batch (spec
section 4.5): every drained entry is inserted into ResidentChunks and its key
removed from RequestedChunks. -/
def ingestStaged : List (String × RawBufferData) →
    List (String × RawBufferData) → List (String × (Int × Int)) →
    List (String × RawBufferData) × List (String × (Int × Int))
  | [], res, req => (res, req)
  | (k, g) :: rest, res, req => ingestStaged rest (mapInsert k g res) (mapErase k req)

/-- The consumer's per-frame pass: the drain in run.rs lines 193-198 (which
replaces `raw_buffer_data` only when the staging map is non-empty), followed
by the spec-modelled ingestion and planner pass of
`state.world.load_chunks`. -/
def consumerFrame (r : Nat) (corner : Int × Int)
    (staged : List (String × RawBufferData)) (w : ConsumerWorld) : ConsumerWorld :=
  let raw := if staged = [] then w.raw_buffer_data else staged
  let ingested := ingestStaged raw w.resident w.requested
  let planned := plannerPass r corner ingested.1
  ⟨planned.1, planned.2, raw⟩

theorem planGo_inv (resident : List (String × RawBufferData)) (corner : Int × Int) :
    ∀ (os : List (Int × Int)) (newRes : List (String × RawBufferData))
      (newReq : List (String × (Int × Int))),
      (∀ k, mapLookup k newRes ≠ none → mapLookup k resident ≠ none) →
      (∀ k, mapLookup k newReq ≠ none → mapLookup k resident = none) →
      (∀ k, mapLookup k (planGo resident corner os newRes newReq).1 ≠ none →
          mapLookup k resident ≠ none) ∧
      (∀ k, mapLookup k (planGo resident corner os newRes newReq).2 ≠ none →
          mapLookup k resident = none) := by
  intro os
  induction os with
  | nil => intro newRes newReq h1 h2; exact ⟨h1, h2⟩
  | cons o os ih =>
    intro newRes newReq h1 h2
    simp only [planGo]
    cases hlk : mapLookup (underscoreKey (corner.1 + o.1 * 32) (corner.2 + o.2 * 32))
        resident with
    | some g =>
      refine ih _ _ ?_ h2
      intro k hk
      rw [mapLookup_insert] at hk
      by_cases hke : underscoreKey (corner.1 + o.1 * 32) (corner.2 + o.2 * 32) = k
      · rw [← hke]; simp [hlk]
      · exact h1 k (by simpa [hke] using hk)
    | none =>
      refine ih _ _ h1 ?_
      intro k hk
      by_cases hnew : mapLookup (underscoreKey (corner.1 + o.1 * 32) (corner.2 + o.2 * 32))
          newReq = none
      · rw [if_pos hnew, mapLookup_append] at hk
        cases hfst : mapLookup k newReq with
        | some v => exact h2 k (by simp [hfst])
        | none =>
          simp only [hfst] at hk
          by_cases hke : underscoreKey (corner.1 + o.1 * 32) (corner.2 + o.2 * 32) = k
          · rw [← hke]; exact hlk
          · simp [hke] at hk
      · rw [if_neg hnew] at hk
        exact h2 k hk

theorem ingestStaged_resident_source :
    ∀ (raw res : List (String × RawBufferData)) (req : List (String × (Int × Int))) (k : String),
      mapLookup k (ingestStaged raw res req).1 ≠ none →
      mapLookup k res ≠ none ∨ mapLookup k raw ≠ none := by
  intro raw
  induction raw with
  | nil => intro res req k hk; exact Or.inl hk
  | cons p rest ih =>
    obtain ⟨j, g⟩ := p
    intro res req k hk
    rcases ih (mapInsert j g res) (mapErase j req) k hk with hr | hr
    · rw [mapLookup_insert] at hr
      by_cases hjk : j = k
      · right; simp [hjk]
      · left; simpa [hjk] using hr
    · right
      simp only [mapLookup_cons]
      by_cases hjk : j = k
      · simp [hjk]
      · simpa [hjk] using hr

/-! ## Concrete data used by witnesses -/

def genV0 : Int → Int → List Nat := fun _ _ => List.replicate 34848 0

def genI0 : Int → Int → List Nat := fun _ _ => List.replicate 24576 1

def sigT : String → Bool := fun _ => true

def sigF : String → Bool := fun _ => false

def bufB : RawBufferData := ⟨List.replicate 34848 2, List.replicate 24576 3⟩

theorem genV0_length (x z : Int) : (genV0 x z).length = 34848 := by
  unfold genV0
  rw [List.length_replicate]

theorem genI0_length (x z : Int) : (genI0 x z).length = 24576 := by
  unfold genI0
  rw [List.length_replicate]

/-! ## The claims -/

/-- C1 counterexample: with the vertex-readback completion signal reporting
failure, `ComputeWorld::load_chunks` on a batch of two requested chunks does
not surface an error value - it hits `panic!("failed to ingest vertex data!")`
and the whole pass aborts, so neither chunk is staged; likewise
`RayIntersectPipeline::ray_intersect` hits
`panic!("failed to run compute on gpu!")`. -/
theorem c1_counterexample :
    loadChunks genV0 genI0 sigF sigT [] [("0_0", [0, 0]), ("32_0", [32, 0])] =
      .panicked "failed to ingest vertex data!" ∧
    rayIntersect (α := Int) false 7 = .panicked "failed to run compute on gpu!" := by
  exact ⟨rfl, rfl⟩

/-- C1 (amended): if the asynchronous map-for-read completion signal reports
failure for any requested chunk that is not already cached, the
`ComputeWorld::load_chunks` call panics (it never returns normally, and in
particular does not stage the other requested chunks: `self.chunks` is never
reassigned); a failed signal in `RayIntersectPipeline::ray_intersect`
likewise panics instead of returning an error value. -/
theorem c1_readback_failure_panics (genV genI : Int → Int → List Nat)
    (sigV sigI : String → Bool) (chunks : List (String × RawBufferData))
    (R : List (String × List Int)) (key : String)
    (hreq : mapLookup key R ≠ none) (hch : mapLookup key chunks = none)
    (hsig : sigV key = false)
    (out : List (String × RawBufferData) × List String) (q : Int) :
    loadChunks genV genI sigV sigI chunks R ≠ .ok out ∧
    rayIntersect (α := Int) false q = .panicked "failed to run compute on gpu!" := by
  constructor
  · exact loadChunksGo_fail genV genI sigV sigI key hsig R chunks [] [] hreq hch out
  · rfl

/-- C1 witness. -/
theorem c1_witness :
    loadChunks genV0 genI0 sigF sigT [] [("a", [0, 0]), ("b", [1, 1])] ≠
      .ok ([], []) ∧
    rayIntersect (α := Int) false 3 = .panicked "failed to run compute on gpu!" :=
  c1_readback_failure_panics genV0 genI0 sigF sigT [] [("a", [0, 0]), ("b", [1, 1])]
    "a" (by decide) rfl rfl ([], []) 3

/-- C2: when every readback signal succeeds, `ComputeWorld::load_chunks(R)`
completes with a cache whose key set is exactly the key set of `R`; keys
already cached are carried forward with their bytes unchanged, keys absent
from the cache are generated, generation happens only for absent keys, and
previously cached keys outside `R` are dropped. -/
theorem c2_load_chunks_window (genV genI : Int → Int → List Nat)
    (sigV sigI : String → Bool) (chunks : List (String × RawBufferData))
    (R : List (String × List Int))
    (hsig : ∀ k, sigV k = true ∧ sigI k = true)
    (hgen : ∀ x z, (genV x z).length = 34848 ∧ (genI x z).length = 24576)
    (hcoords : ∀ p ∈ R, 2 ≤ (p.2).length)
    (hnd : (mapKeys R).Nodup) :
    ∃ newChunks gens,
      loadChunks genV genI sigV sigI chunks R = .ok (newChunks, gens) ∧
      (∀ k, mapLookup k newChunks = none ↔ mapLookup k R = none) ∧
      (∀ k c, mapLookup k R ≠ none → mapLookup k chunks = some c →
        mapLookup k newChunks = some c) ∧
      (∀ k coords, mapLookup k R = some coords → mapLookup k chunks = none →
        mapLookup k newChunks =
          some ⟨genV (coords.getD 0 0) (coords.getD 1 0),
                genI (coords.getD 0 0) (coords.getD 1 0)⟩) ∧
      (∀ k, k ∈ gens ↔ (mapLookup k R ≠ none ∧ mapLookup k chunks = none)) := by
  refine ⟨produced genV genI R chunks, genKeys R chunks,
    loadChunks_ok genV genI sigV sigI chunks R hsig hgen hcoords hnd, ?_, ?_, ?_, ?_⟩
  · intro k
    constructor
    · intro hnone
      cases hR : mapLookup k R with
      | none => rfl
      | some coords =>
        cases hc : mapLookup k chunks with
        | some c =>
          rw [produced_lookup_carried genV genI k c R chunks (by simp [hR]) hc] at hnone
          simp at hnone
        | none =>
          rw [produced_lookup_generated genV genI k coords R chunks hR hc] at hnone
          simp at hnone
    · exact produced_lookup_none genV genI k R chunks
  · intro k c hR hc
    exact produced_lookup_carried genV genI k c R chunks hR hc
  · intro k coords hR hc
    exact produced_lookup_generated genV genI k coords R chunks hR hc
  · intro k
    exact genKeys_mem k R chunks hnd

/-- C2 witness. -/
theorem c2_witness :
    ∃ newChunks gens,
      loadChunks genV0 genI0 sigT sigT [("b", bufB)] [("a", [5, 6]), ("b", [0, 0])] =
        .ok (newChunks, gens) ∧
      mapLookup "b" newChunks = some bufB ∧
      mapLookup "a" newChunks = some ⟨genV0 5 6, genI0 5 6⟩ ∧
      mapLookup "c" newChunks = none ∧
      "a" ∈ gens ∧ "b" ∉ gens := by
  obtain ⟨n, g, hok, hnone, hcarry, hgenr, hgens⟩ :=
    c2_load_chunks_window genV0 genI0 sigT sigT [("b", bufB)] [("a", [5, 6]), ("b", [0, 0])]
      (fun _ => ⟨rfl, rfl⟩) (fun x z => ⟨genV0_length x z, genI0_length x z⟩)
      (by decide) (by decide)
  refine ⟨n, g, hok, ?_, ?_, ?_, ?_, ?_⟩
  · exact hcarry "b" bufB (by decide) rfl
  · exact hgenr "a" [5, 6] rfl rfl
  · exact (hnone "c").mpr rfl
  · exact (hgens "a").mpr ⟨by decide, rfl⟩
  · intro hmem
    have hb : mapLookup "b" [("b", bufB)] = none := ((hgens "b").mp hmem).2
    simp at hb

/-- C6: with chunk resolution 32 (the deployed `chunk_size = (32, 32)`),
every chunk in the cache produced by `ComputeWorld::load_chunks` carries
exactly `(32+1)² = 1089` vertices of `8` four-byte floats (`34848` raw
vertex bytes) and `32² × 6 = 6144` four-byte indices (`24576` raw index
bytes), and these sizes equal the device buffer sizes allocated by
`ComputeWorldPipeline::gen_chunk` for `chunk_size = (32, 32)`. -/
theorem c6_generated_geometry_sizes (genV genI : Int → Int → List Nat)
    (sigV sigI : String → Bool) (chunks : List (String × RawBufferData))
    (R : List (String × List Int))
    (hsig : ∀ k, sigV k = true ∧ sigI k = true)
    (hgen : ∀ x z, (genV x z).length = 34848 ∧ (genI x z).length = 24576)
    (hcoords : ∀ p ∈ R, 2 ≤ (p.2).length)
    (hnd : (mapKeys R).Nodup)
    (hchunks : ∀ p ∈ chunks, (p.2).sized) :
    ∃ newChunks gens,
      loadChunks genV genI sigV sigI chunks R = .ok (newChunks, gens) ∧
      (∀ k, mapLookup k newChunks = none ↔ mapLookup k R = none) ∧
      (∀ k b, mapLookup k newChunks = some b →
        b.vertex_data.length = numVertices 32 32 * 8 * 4 ∧
        b.index_data.length = numElements 32 32 * 4 ∧
        b.vertex_data.length = 34848 ∧ b.index_data.length = 24576) ∧
      numVertices 32 32 = (32 + 1) ^ 2 ∧ numElements 32 32 = 32 ^ 2 * 6 ∧
      vertexBufferSize 32 32 = 34848 ∧ indexBufferSize 32 32 = 24576 := by
  refine ⟨produced genV genI R chunks, genKeys R chunks,
    loadChunks_ok genV genI sigV sigI chunks R hsig hgen hcoords hnd, ?_, ?_,
    by decide, by decide, by decide, by decide⟩
  · intro k
    constructor
    · intro hnone
      cases hR : mapLookup k R with
      | none => rfl
      | some coords =>
        cases hc : mapLookup k chunks with
        | some c =>
          rw [produced_lookup_carried genV genI k c R chunks (by simp [hR]) hc] at hnone
          simp at hnone
        | none =>
          rw [produced_lookup_generated genV genI k coords R chunks hR hc] at hnone
          simp at hnone
    · exact produced_lookup_none genV genI k R chunks
  · intro k b hb
    have hmem : (k, b) ∈ produced genV genI R chunks := mapLookup_mem _ _ _ hb
    have hsz := produced_sized genV genI hgen R chunks hchunks (k, b) hmem
    exact ⟨by simpa [numVertices] using hsz.1, by simpa [numElements] using hsz.2,
      hsz.1, hsz.2⟩

/-- C6 witness. -/
theorem c6_witness :
    ∃ newChunks gens,
      loadChunks genV0 genI0 sigT sigT [] [("k", [3, 4])] = .ok (newChunks, gens) ∧
      ∃ b, mapLookup "k" newChunks = some b ∧
        b.vertex_data.length = numVertices 32 32 * 8 * 4 ∧
        b.index_data.length = numElements 32 32 * 4 ∧
        vertexBufferSize 32 32 = 34848 ∧ indexBufferSize 32 32 = 24576 := by
  obtain ⟨n, g, hok, hnone, hsz, _, _, hv, hi⟩ :=
    c6_generated_geometry_sizes genV0 genI0 sigT sigT [] [("k", [3, 4])]
      (fun _ => ⟨rfl, rfl⟩) (fun x z => ⟨genV0_length x z, genI0_length x z⟩)
      (by decide) (by decide) (by simp)
  have hne : mapLookup "k" n ≠ none := by
    intro hcon
    have := (hnone "k").mp hcon
    simp at this
  cases hb : mapLookup "k" n with
  | none => exact absurd hb hne
  | some b =>
    obtain ⟨h1, h2, _, _⟩ := hsz "k" b hb
    exact ⟨n, g, hok, b, hb, h1, h2, hv, hi⟩

/-- C7: with every readback signal succeeding, `ComputeWorld::load_chunks` is
idempotent: a second call with the same requested-chunks map leaves the cache
literally identical and generates nothing. -/
theorem c7_load_chunks_idempotent (genV genI : Int → Int → List Nat)
    (sigV sigI : String → Bool) (chunks : List (String × RawBufferData))
    (R : List (String × List Int))
    (hsig : ∀ k, sigV k = true ∧ sigI k = true)
    (hgen : ∀ x z, (genV x z).length = 34848 ∧ (genI x z).length = 24576)
    (hcoords : ∀ p ∈ R, 2 ≤ (p.2).length)
    (hnd : (mapKeys R).Nodup) :
    ∃ cache1 gens1,
      loadChunks genV genI sigV sigI chunks R = .ok (cache1, gens1) ∧
      loadChunks genV genI sigV sigI cache1 R = .ok (cache1, []) := by
  refine ⟨produced genV genI R chunks, genKeys R chunks,
    loadChunks_ok genV genI sigV sigI chunks R hsig hgen hcoords hnd, ?_⟩
  have hkeys : mapKeys (produced genV genI R chunks) = mapKeys R :=
    produced_keys genV genI R chunks
  obtain ⟨hprod, hgens⟩ := produced_self genV genI R (produced genV genI R chunks) hnd hkeys
  rw [loadChunks_ok genV genI sigV sigI (produced genV genI R chunks) R hsig hgen
    hcoords hnd, hprod, hgens]

/-- C7 witness. -/
theorem c7_witness :
    ∃ cache1 gens1,
      loadChunks genV0 genI0 sigT sigT [] [("k", [1, 2])] = .ok (cache1, gens1) ∧
      loadChunks genV0 genI0 sigT sigT cache1 [("k", [1, 2])] = .ok (cache1, []) :=
  c7_load_chunks_idempotent genV0 genI0 sigT sigT [] [("k", [1, 2])]
    (fun _ => ⟨rfl, rfl⟩) (fun x z => ⟨genV0_length x z, genI0_length x z⟩)
    (by decide) (by decide)

/-- C9: a background tick (`run`, lines 131-154) runs `load_chunks` and then
merges the *entire* resulting chunk cache - carried-forward entries included -
into the shared staging map via `extend`, overwriting staged entries for keys
in the cache and preserving every staged entry under other keys; so the
staging map (drained wholesale by the consumer) contains the producer's full
cache contents of that tick. -/
theorem c9_producer_merges_full_cache (genV genI : Int → Int → List Nat)
    (sigV sigI : String → Bool) (chunks staged : List (String × RawBufferData))
    (R : List (String × List Int))
    (hsig : ∀ k, sigV k = true ∧ sigI k = true)
    (hgen : ∀ x z, (genV x z).length = 34848 ∧ (genI x z).length = 24576)
    (hcoords : ∀ p ∈ R, 2 ≤ (p.2).length)
    (hnd : (mapKeys R).Nodup) :
    ∃ newChunks staged2,
      producerTick genV genI sigV sigI chunks staged R = .ok (newChunks, staged2) ∧
      (∀ k c, mapLookup k newChunks = some c → mapLookup k staged2 = some c) ∧
      (∀ k, mapLookup k newChunks = none → mapLookup k staged2 = mapLookup k staged) ∧
      (∀ k c, mapLookup k R ≠ none → mapLookup k chunks = some c →
        mapLookup k newChunks = some c) ∧
      (∀ k coords, mapLookup k R = some coords → mapLookup k chunks = none →
        mapLookup k newChunks =
          some ⟨genV (coords.getD 0 0) (coords.getD 1 0),
                genI (coords.getD 0 0) (coords.getD 1 0)⟩) ∧
      (∀ k, mapLookup k newChunks = none ↔ mapLookup k R = none) := by
  have hndp : (mapKeys (produced genV genI R chunks)).Nodup := by
    rw [produced_keys]; exact hnd
  refine ⟨produced genV genI R chunks,
    mapExtend staged (produced genV genI R chunks), ?_, ?_, ?_, ?_, ?_, ?_⟩
  · unfold producerTick
    rw [loadChunks_ok genV genI sigV sigI chunks R hsig hgen hcoords hnd]
  · intro k c hc
    rw [mapLookup_extend k staged _ hndp, hc]
  · intro k hc
    rw [mapLookup_extend k staged _ hndp, hc]
  · intro k c hR hc
    exact produced_lookup_carried genV genI k c R chunks hR hc
  · intro k coords hR hc
    exact produced_lookup_generated genV genI k coords R chunks hR hc
  · intro k
    constructor
    · intro hnone
      cases hR : mapLookup k R with
      | none => rfl
      | some coords =>
        cases hc : mapLookup k chunks with
        | some c =>
          rw [produced_lookup_carried genV genI k c R chunks (by simp [hR]) hc] at hnone
          simp at hnone
        | none =>
          rw [produced_lookup_generated genV genI k coords R chunks hR hc] at hnone
          simp at hnone
    · exact produced_lookup_none genV genI k R chunks

/-- C9 witness. -/
theorem c9_witness :
    ∃ newChunks staged2,
      producerTick genV0 genI0 sigT sigT [] [("old", bufB)] [("a", [0, 0])] =
        .ok (newChunks, staged2) ∧
      mapLookup "a" staged2 = some ⟨genV0 0 0, genI0 0 0⟩ ∧
      mapLookup "old" staged2 = some bufB := by
  obtain ⟨n, s2, hok, hfull, hpres, _, hgenr, hnone⟩ :=
    c9_producer_merges_full_cache genV0 genI0 sigT sigT [] [("old", bufB)]
      [("a", [0, 0])] (fun _ => ⟨rfl, rfl⟩)
      (fun x z => ⟨genV0_length x z, genI0_length x z⟩) (by decide) (by decide)
  refine ⟨n, s2, hok, ?_, ?_⟩
  · exact hfull "a" _ (hgenr "a" [0, 0] rfl rfl)
  · rw [hpres "old" ((hnone "old").mpr rfl)]
    rfl

/-- C10: the staging buffer sizes and owned arrays inside
`ComputeWorld::load_chunks` are hard-coded to a 32 × 32 chunk (34848 vertex
bytes, 24576 index bytes); the device buffer sizes of
`ComputeWorldPipeline::gen_chunk` agree with them exactly when the pipeline's
configured `chunk_size` is `(32, 32)` (arithmetic is over ℕ, matching the
fact that debug-build Rust panics rather than wraps on overflow, so a size is
produced only when the products are exact); and a mapped range of the staging
buffer's exact length makes `copy_from_slice` succeed. -/
theorem c10_hardcoded_32 (cx cy : Nat) :
    ((vertexBufferSize cx cy = stagingVertexSize ∧
      indexBufferSize cx cy = stagingIndexSize) ↔ (cx = 32 ∧ cy = 32)) ∧
    stagingVertexSize = 34848 ∧ stagingIndexSize = 24576 ∧
    (∀ mapped : List Nat, mapped.length = 34848 →
      copyFromSlice (List.replicate 34848 0) mapped = .ok mapped) ∧
    (∀ mapped : List Nat, mapped.length = 24576 →
      copyFromSlice (List.replicate 24576 0) mapped = .ok mapped) := by
  refine ⟨?_, by decide, by decide, ?_, ?_⟩
  · constructor
    · rintro ⟨hv, hi⟩
      unfold vertexBufferSize numVertices stagingVertexSize stagingNumVertices at hv
      unfold indexBufferSize numElements stagingIndexSize stagingNumIndices at hi
      have ha : (cx + 1) * (cy + 1) = 1089 := by omega
      have hb : cx * cy = 1024 := by
        have h6 : cx * cy * 6 * 4 = 24576 := hi
        omega
      have hexp : (cx + 1) * (cy + 1) = cx * cy + cx + cy + 1 := by ring
      have hsum : cx + cy = 64 := by omega
      have hsums : (cx : Int) + cy = 64 := by exact_mod_cast hsum
      have hprod : (cx : Int) * cy = 1024 := by exact_mod_cast hb
      have hsq : ((cx : Int) - cy) ^ 2 = ((cx : Int) + cy) ^ 2 - 4 * ((cx : Int) * cy) := by
        ring
      rw [hsums, hprod] at hsq
      norm_num at hsq
      have hcxy : (cx : Int) = cy := by omega
      have : cx = 32 ∧ cy = 32 := by omega
      exact this
    · rintro ⟨rfl, rfl⟩
      exact ⟨by decide, by decide⟩
  · intro mapped hm
    have hlen : mapped.length = (List.replicate 34848 (0 : Nat)).length := by
      rw [List.length_replicate, hm]
    unfold copyFromSlice
    rw [if_pos hlen]
  · intro mapped hm
    have hlen : mapped.length = (List.replicate 24576 (0 : Nat)).length := by
      rw [List.length_replicate, hm]
    unfold copyFromSlice
    rw [if_pos hlen]

/-- C10 witness. -/
theorem c10_witness :
    (vertexBufferSize 32 32 = stagingVertexSize ∧
      indexBufferSize 32 32 = stagingIndexSize) ∧
    copyFromSlice (List.replicate 34848 0) (List.replicate 34848 0) =
      .ok (List.replicate 34848 0) ∧
    copyFromSlice (List.replicate 24576 0) (List.replicate 24576 0) =
      .ok (List.replicate 24576 0) := by
  have h := c10_hardcoded_32 32 32
  exact ⟨h.1.mpr ⟨rfl, rfl⟩, h.2.2.2.1 _ (by rw [List.length_replicate]),
    h.2.2.2.2 _ (by rw [List.length_replicate])⟩

/-- C3 (consumer `World` modelled from the spec, see `ConsumerWorld`): after a
consumer frame - the run.rs drain followed by ingestion of the drained batch
and a planner pass - no chunk key is present in both RequestedChunks and
ResidentChunks; and every key resident after the pass was either already
resident or arrived through the staging hand-off (the drained batch), so the
hand-off is the only transition from requested to resident. -/
theorem c3_requested_resident_disjoint (r : Nat) (corner : Int × Int)
    (staged : List (String × RawBufferData)) (w : ConsumerWorld) :
    (∀ k, ¬(mapLookup k (consumerFrame r corner staged w).requested ≠ none ∧
            mapLookup k (consumerFrame r corner staged w).resident ≠ none)) ∧
    (∀ k, mapLookup k (consumerFrame r corner staged w).resident ≠ none →
      mapLookup k w.resident ≠ none ∨ mapLookup k staged ≠ none ∨
        mapLookup k w.raw_buffer_data ≠ none) := by
  have hres_eq : (consumerFrame r corner staged w).resident =
      (planGo (ingestStaged (if staged = [] then w.raw_buffer_data else staged)
        w.resident w.requested).1 corner
        ((windowOffsets r).filter (diskOK r)) [] []).1 := rfl
  have hreq_eq : (consumerFrame r corner staged w).requested =
      (planGo (ingestStaged (if staged = [] then w.raw_buffer_data else staged)
        w.resident w.requested).1 corner
        ((windowOffsets r).filter (diskOK r)) [] []).2 := rfl
  obtain ⟨hi1, hi2⟩ := planGo_inv
    (ingestStaged (if staged = [] then w.raw_buffer_data else staged)
      w.resident w.requested).1 corner
    ((windowOffsets r).filter (diskOK r)) [] []
    (fun k hk => absurd rfl hk) (fun k hk => absurd rfl hk)
  constructor
  · intro k hk
    obtain ⟨hreq, hres⟩ := hk
    rw [hreq_eq] at hreq
    rw [hres_eq] at hres
    exact (hi1 k hres) (hi2 k hreq)
  · intro k hres
    rw [hres_eq] at hres
    have h1 := hi1 k hres
    rcases ingestStaged_resident_source _ w.resident w.requested k h1 with h | h
    · exact Or.inl h
    · by_cases hs : staged = []
      · rw [if_pos hs] at h
        exact Or.inr (Or.inr h)
      · rw [if_neg hs] at h
        exact Or.inr (Or.inl h)

/-- C3 witness. -/
theorem c3_witness :
    ¬(mapLookup "0_0" (consumerFrame 0 (0, 0) [("0_0", ⟨[1], [2]⟩)] ⟨[], [], []⟩).requested
        ≠ none ∧
      mapLookup "0_0" (consumerFrame 0 (0, 0) [("0_0", ⟨[1], [2]⟩)] ⟨[], [], []⟩).resident
        ≠ none) ∧
    (mapLookup "0_0" (ConsumerWorld.mk [] [] []).resident ≠ none ∨
      mapLookup "0_0" [("0_0", (⟨[1], [2]⟩ : RawBufferData))] ≠ none ∨
      mapLookup "0_0" (ConsumerWorld.mk [] [] []).raw_buffer_data ≠ none) := by
  have h := c3_requested_resident_disjoint 0 (0, 0) [("0_0", ⟨[1], [2]⟩)] ⟨[], [], []⟩
  exact ⟨h.1 "0_0", h.2 "0_0" (by decide)⟩

/-- C4 counterexample: for the viewer x-position `-5` (negative and not on a
chunk boundary), `World::get_chunk` computes the corner `0` - truncation
toward zero plus negative-zero normalization - whereas the claimed flooring
division would give the next multiple toward negative infinity, `-16`. -/
theorem c4_counterexample :
    (xCoordF (SFloat.ofRat (-5))).val = 0 ∧
    specFloorCorner (-5) = -16 ∧
    (xCoordF (SFloat.ofRat (-5))).val ≠ specFloorCorner (-5) := by
  have hval : (xCoordF (SFloat.ofRat (-5))).val = 0 := by
    rw [xCoordF_val]
    have ht : ratTrunc ((SFloat.ofRat (-5)).val / 16) = 0 := by
      show ratTrunc ((-5 : ℚ) / 16) = 0
      unfold ratTrunc
      rw [if_neg (by norm_num)]
      norm_num [Int.ceil_eq_zero_iff]
    rw [ht]
    norm_num
  have hspec : specFloorCorner (-5) = -16 := by
    unfold specFloorCorner
    have hf : ⌊(-5 : ℚ) / 16⌋ = -1 := by
      rw [Int.floor_eq_iff]
      constructor <;> norm_num
    rw [hf]
    norm_num
  refine ⟨hval, hspec, ?_⟩
  rw [hval, hspec]
  norm_num

/-- C4 (amended): the containing chunk's corner coordinate is computed per
axis independently by *truncating* (toward zero) division by the chunk edge
length 16, then multiplying back, with negative zero normalized to zero: the
corner is always the multiple of 16 lying between 0 and the position, within
16 of it - so for negative positions not on a chunk boundary the corner is
the next multiple toward zero, not toward negative infinity. -/
theorem c4_trunc_corner (q : ℚ) :
    (xCoordF (SFloat.ofRat q)).val = (ratTrunc (q / 16) : ℚ) * 16 ∧
    (∃ k : Int, (xCoordF (SFloat.ofRat q)).val = (k : ℚ) * 16) ∧
    (0 ≤ q → 0 ≤ (xCoordF (SFloat.ofRat q)).val ∧
      (xCoordF (SFloat.ofRat q)).val ≤ q ∧
      q < (xCoordF (SFloat.ofRat q)).val + 16) ∧
    (q ≤ 0 → (xCoordF (SFloat.ofRat q)).val ≤ 0 ∧
      q ≤ (xCoordF (SFloat.ofRat q)).val ∧
      (xCoordF (SFloat.ofRat q)).val < q + 16) := by
  have hval : (xCoordF (SFloat.ofRat q)).val = (ratTrunc (q / 16) : ℚ) * 16 :=
    xCoordF_val (SFloat.ofRat q)
  refine ⟨hval, ⟨ratTrunc (q / 16), hval⟩, ?_, ?_⟩
  · intro hq
    rw [hval]
    have hq16 : 0 ≤ q / 16 := by positivity
    have ht : ratTrunc (q / 16) = ⌊q / 16⌋ := by
      unfold ratTrunc
      rw [if_pos hq16]
    rw [ht]
    refine ⟨?_, ?_, ?_⟩
    · have h0 : (0 : ℤ) ≤ ⌊q / 16⌋ := Int.floor_nonneg.mpr hq16
      have h0q : (0 : ℚ) ≤ (⌊q / 16⌋ : ℚ) := by exact_mod_cast h0
      nlinarith
    · have h1 : ((⌊q / 16⌋ : ℚ)) ≤ q / 16 := Int.floor_le _
      calc (⌊q / 16⌋ : ℚ) * 16 ≤ (q / 16) * 16 :=
            mul_le_mul_of_nonneg_right h1 (by norm_num)
        _ = q := by field_simp
    · have h2 : q / 16 < (⌊q / 16⌋ : ℚ) + 1 := Int.lt_floor_add_one _
      calc q = (q / 16) * 16 := by field_simp
        _ < ((⌊q / 16⌋ : ℚ) + 1) * 16 := mul_lt_mul_of_pos_right h2 (by norm_num)
        _ = (⌊q / 16⌋ : ℚ) * 16 + 16 := by ring
  · intro hq
    rw [hval]
    by_cases hq0 : q = 0
    · subst hq0
      rw [show ((0 : ℚ) / 16) = 0 by norm_num, ratTrunc_zero]
      norm_num
    · have hqneg : q < 0 := lt_of_le_of_ne hq hq0
      have hq16 : q / 16 < 0 := div_neg_of_neg_of_pos hqneg (by norm_num)
      have ht : ratTrunc (q / 16) = ⌈q / 16⌉ := by
        unfold ratTrunc
        rw [if_neg (by linarith)]
      rw [ht]
      refine ⟨?_, ?_, ?_⟩
      · have hceil : ⌈q / 16⌉ ≤ 0 := by
          rw [Int.ceil_le]
          push_cast
          linarith
        have hcq : ((⌈q / 16⌉ : ℚ)) ≤ 0 := by exact_mod_cast hceil
        nlinarith
      · have h1 : q / 16 ≤ (⌈q / 16⌉ : ℚ) := Int.le_ceil _
        calc q = (q / 16) * 16 := by field_simp
          _ ≤ (⌈q / 16⌉ : ℚ) * 16 := mul_le_mul_of_nonneg_right h1 (by norm_num)
      · have h2 : (⌈q / 16⌉ : ℚ) < q / 16 + 1 := Int.ceil_lt_add_one _
        calc (⌈q / 16⌉ : ℚ) * 16 < (q / 16 + 1) * 16 :=
              mul_lt_mul_of_pos_right h2 (by norm_num)
          _ = q + 16 := by field_simp

/-- C4 witness. -/
theorem c4_witness :
    (xCoordF (SFloat.ofRat 37)).val = 32 ∧
    0 ≤ (xCoordF (SFloat.ofRat 37)).val ∧
    (xCoordF (SFloat.ofRat 37)).val ≤ 37 ∧
    (37 : ℚ) < (xCoordF (SFloat.ofRat 37)).val + 16 := by
  have h := c4_trunc_corner 37
  have hval : (xCoordF (SFloat.ofRat 37)).val = 32 := by
    rw [h.1]
    have ht : ratTrunc ((37 : ℚ) / 16) = 2 := by
      unfold ratTrunc
      rw [if_pos (by norm_num)]
      rw [Int.floor_eq_iff]
      constructor <;> norm_num
    rw [ht]
    norm_num
  obtain ⟨h3a, h3b, h3c⟩ := h.2.2.1 (by norm_num)
  exact ⟨hval, h3a, h3b, h3c⟩

/-- C5 counterexample: for the corner pair `(32, -96)` the key
`World::get_chunk` builds is `"32,-96"` - decimal integers joined by a comma -
and not the underscore-joined `"32_-96"` the claim states. -/
theorem c5_counterexample :
    getChunkKey (SFloat.ofRat 32) (SFloat.ofRat (-96)) = "32,-96" ∧
    getChunkKey (SFloat.ofRat 32) (SFloat.ofRat (-96)) ≠ "32_-96" := by
  have hx : ratTrunc ((32 : ℚ) / 16) = 2 := by
    rw [show ((32 : ℚ) / 16) = ((2 : Int) : ℚ) by norm_num, ratTrunc_intCast]
  have hz : ratTrunc ((-96 : ℚ) / 16) = -6 := by
    rw [show ((-96 : ℚ) / 16) = ((-6 : Int) : ℚ) by norm_num, ratTrunc_intCast]
  have hkey : getChunkKey (SFloat.ofRat 32) (SFloat.ofRat (-96)) = "32,-96" := by
    unfold getChunkKey
    rw [fmtCorner_xCoordF, fmtCorner_xCoordF]
    show String.mk (intChars (ratTrunc ((32 : ℚ) / 16) * 16) ++
      ',' :: intChars (ratTrunc ((-96 : ℚ) / 16) * 16)) = "32,-96"
    rw [hx, hz]
    decide
  exact ⟨hkey, by rw [hkey]; decide⟩

/-- C5 (amended): for every position pair, the chunk key `World::get_chunk`
produces is the signed decimal integer representations of the two corner
coordinates joined by a *comma* (e.g. `"32,-96"`), and this format is stable
and parseable back into the original coordinate pair. -/
theorem c5_comma_key_roundtrip (px pz : SFloat) :
    (getChunkKey px pz).data =
      intChars (ratTrunc (px.val / 16) * 16) ++
        ',' :: intChars (ratTrunc (pz.val / 16) * 16) ∧
    parseChunkKey (getChunkKey px pz) =
      some (ratTrunc (px.val / 16) * 16, ratTrunc (pz.val / 16) * 16) := by
  constructor
  · unfold getChunkKey
    rw [fmtCorner_xCoordF, fmtCorner_xCoordF]
  · exact getChunkKey_parse px pz

/-- C8: a negative-zero coordinate yields the same chunk key as positive
zero, in either component: the corner computation of `World::get_chunk`
normalizes `-0.0` to `0.0` before key formatting. -/
theorem c8_neg_zero_key (z : SFloat) :
    getChunkKey negZeroF z = getChunkKey (SFloat.ofRat 0) z ∧
    getChunkKey z negZeroF = getChunkKey z (SFloat.ofRat 0) := by
  have h : xCoordF negZeroF = xCoordF (SFloat.ofRat 0) := by
    unfold xCoordF normalizeNegZero fmul16 ftruncF fdiv16 negZeroF SFloat.ofRat
    norm_num [ratTrunc_zero]
  constructor
  · unfold getChunkKey
    rw [h]
  · unfold getChunkKey
    rw [h]

end RustGame
